import Mathlib

/-!
Verification development for the `digest_to_audio.py` pipeline.

The script-parsing core (`parse_script_to_turns`) and the pieces of the
pipeline the specification talks about are embedded shallowly: strings are
`List Char`, Python's `str.strip` / `str.split('\n')` and the regular
expression `^([A-Za-z0-9]+):\s*(.+)$` are translated into executable Lean
functions, subprocess calls and the file system are modelled as explicit
inputs.
-/

namespace DigestAudio

/-- Whitespace as used by Python's `str.strip()` and the regex class `\s`
(the common ASCII whitespace set). -/
def isSpace (c : Char) : Bool :=
  c = ' ' || c = '\t' || c = '\n' || c = '\r' || c = '\x0b' || c = '\x0c'

/-- The character class `[A-Za-z0-9]` of the speaker regex. -/
def isAlnum (c : Char) : Bool :=
  ('A' ≤ c && c ≤ 'Z') || ('a' ≤ c && c ≤ 'z') || ('0' ≤ c && c ≤ '9')

/-- Python `str.strip()`: drop leading and trailing whitespace. -/
def pstrip (l : List Char) : List Char :=
  ((l.dropWhile isSpace).reverse.dropWhile isSpace).reverse

/-- Python `str.split('\n')`: split at every newline, keeping empty pieces
(`"".split('\n') == ['']`). -/
def splitOnNewline : List Char → List (List Char)
  | [] => [[]]
  | c :: rest =>
    if c = '\n' then [] :: splitOnNewline rest
    else
      match splitOnNewline rest with
      | [] => [[c]]
      | r :: rs => (c :: r) :: rs

/-- One dialogue turn, `{'speaker': ..., 'text': ...}` in the source. -/
structure DialogueTurn where
  speaker : List Char
  text : List Char
deriving DecidableEq, Repr

/-- Embeds `re.match(r'^([A-Za-z0-9]+):\s*(.+)$', line)` together with the
`text.strip()` applied to the second group on success, returning
`(speaker, text)` when the regex matches.

The regex is deterministic up to the `\s*`: the speaker group is the maximal
alphanumeric run at the start of the line (a shorter run is followed by an
alphanumeric character, never by the required colon), and the greedy `\s*`
backtracks just far enough to leave at least one character for `(.+)$`,
i.e. it consumes `min wsRun (after.length - 1)` characters. -/
def matchSpeakerLine (line : List Char) : Option (List Char × List Char) :=
  let speaker := line.takeWhile isAlnum
  if speaker.isEmpty then none
  else
    match line.dropWhile isAlnum with
    | ':' :: after =>
      if after.isEmpty then none
      else
        let k := min (after.takeWhile isSpace).length (after.length - 1)
        some (speaker, pstrip (after.drop k))
    | _ => none

/-- `turns[-1]['text'] += ' ' + line` when `turns` is non-empty; the identity
on the empty list (the source guards with `if turns:`). -/
def appendToLast (turns : List DialogueTurn) (line : List Char) : List DialogueTurn :=
  match turns with
  | [] => []
  | [t] => [⟨t.speaker, t.text ++ ' ' :: line⟩]
  | t :: ts => t :: appendToLast ts line

/-- The body of the `for line in lines:` loop of `parse_script_to_turns`. -/
def processLine (turns : List DialogueTurn) (rawLine : List Char) : List DialogueTurn :=
  let line := pstrip rawLine
  if line.isEmpty then turns
  else
    match matchSpeakerLine line with
    | some (speaker, text) => turns ++ [⟨speaker, text⟩]
    | none => appendToLast turns line

/-- `parse_script_to_turns` from `digest_to_audio.py`:
`lines = script.strip().split('\n')`, then the per-line loop. -/
def parse_script_to_turns (script : List Char) : List DialogueTurn :=
  (splitOnNewline (pstrip script)).foldl processLine []

/-! ### The markdown cleaner `clean_markdown_for_tts`

Each `re.sub` is embedded as a matcher that, at a given position, either
fails or returns the replacement text and the remainder after the match,
plus a driver that scans left to right (on failure it advances one
character, exactly like `re.sub`).  All four patterns require at least one
character, so a fuel of the input length is enough for the driver never to
run out. -/

/-- `\[([^\]]+)\]\([^\)]+\)` replaced by the first group: a markdown link
becomes its link text.  Both character classes exclude their closing
bracket, so the greedy `+` is deterministic. -/
def matchLink (l : List Char) : Option (List Char × List Char) :=
  match l with
  | '[' :: rest =>
    let inner := rest.takeWhile (fun c => c ≠ ']')
    if inner.isEmpty then none
    else
      match rest.drop inner.length with
      | ']' :: '(' :: rest2 =>
        let url := rest2.takeWhile (fun c => c ≠ ')')
        if url.isEmpty then none
        else
          match rest2.drop url.length with
          | ')' :: tail => some (inner, tail)
          | _ => none
      | _ => none
  | _ => none

/-- `https?://\S+` replaced by nothing: a standalone URL is removed.
The optional `s?` backtracks (an `s` is only consumed when `://` follows),
and `\S+` is the maximal non-empty run of non-whitespace. -/
def matchUrl (l : List Char) : Option (List Char × List Char) :=
  match l with
  | 'h' :: 't' :: 't' :: 'p' :: rest =>
    let tailOpt : Option (List Char) :=
      match rest with
      | 's' :: ':' :: '/' :: '/' :: r => some r
      | ':' :: '/' :: '/' :: r => some r
      | _ => none
    match tailOpt with
    | some r =>
      let w := r.takeWhile (fun c => !isSpace c)
      if w.isEmpty then none else some ([], r.drop w.length)
    | none => none
  | _ => none

/-- `\*\*([^\*]+)\*\*` replaced by the group: bold markers stripped. -/
def matchBold (l : List Char) : Option (List Char × List Char) :=
  match l with
  | '*' :: '*' :: rest =>
    let inner := rest.takeWhile (fun c => c ≠ '*')
    if inner.isEmpty then none
    else
      match rest.drop inner.length with
      | '*' :: '*' :: tail => some (inner, tail)
      | _ => none
  | _ => none

/-- `\*([^\*]+)\*` replaced by the group: italic markers stripped. -/
def matchItalic (l : List Char) : Option (List Char × List Char) :=
  match l with
  | '*' :: rest =>
    let inner := rest.takeWhile (fun c => c ≠ '*')
    if inner.isEmpty then none
    else
      match rest.drop inner.length with
      | '*' :: tail => some (inner, tail)
      | _ => none
  | _ => none

/-- `re.sub` driver: scan left to right, replacing each leftmost match and
resuming after it, advancing one character on failure.  Structural in the
fuel so that the kernel can evaluate it; every matcher above consumes at
least one character, so `fuel = input length` never runs out. -/
def subAllF (m : List Char → Option (List Char × List Char)) :
    Nat → List Char → List Char
  | _, [] => []
  | 0, l => l
  | fuel + 1, c :: rest =>
    match m (c :: rest) with
    | some (r, t) => r ++ subAllF m fuel t
    | none => c :: subAllF m fuel rest

def subAll (m : List Char → Option (List Char × List Char)) (l : List Char) :
    List Char :=
  subAllF m l.length l

/-- `re.sub(r'^#+\s+', '', text, flags=re.MULTILINE)`: at the start of the
text or right after a newline, a run of `#` followed by at least one
whitespace character is removed (the greedy `\s+` also swallows following
newlines).  After a match, scanning resumes after it; that position is a
line start exactly when the last consumed whitespace character was a
newline. -/
def subHeadersF : Nat → Bool → List Char → List Char
  | _, _, [] => []
  | 0, _, l => l
  | fuel + 1, atStart, c :: rest =>
    if atStart then
      let hs := (c :: rest).takeWhile (fun d => d = '#')
      let afterHs := (c :: rest).drop hs.length
      let ws := afterHs.takeWhile isSpace
      if hs.isEmpty || ws.isEmpty then
        c :: subHeadersF fuel (c = '\n') rest
      else
        subHeadersF fuel (ws.getLast? = some '\n') (afterHs.drop ws.length)
    else
      c :: subHeadersF fuel (c = '\n') rest

def subHeaders (l : List Char) : List Char :=
  subHeadersF l.length true l

/-- `clean_markdown_for_tts` from `digest_to_audio.py`: links to their text,
URLs removed, bold then italic markers stripped, headers stripped, result
trimmed. -/
def clean_markdown_for_tts (text : List Char) : List Char :=
  pstrip (subHeaders (subAll matchItalic (subAll matchBold
    (subAll matchUrl (subAll matchLink text)))))

/-! ### The rewrite step `rewrite_digest_with_claude`

The cached file and the `subprocess.run(['claude', '-p', prompt], ...)`
invocation are external; they are modelled as explicit inputs.  The source
first returns the cached rewritten digest when one exists for today;
otherwise on success it saves and returns the stripped stdout, and on
`CalledProcessError` or `FileNotFoundError` it falls back to
`clean_markdown_for_tts(text)`. -/

/-- Outcome of a `subprocess.run(..., check=True)` call. -/
inductive CmdOutcome where
  | ok (stdout : List Char)
  | calledProcessError
  | fileNotFound
deriving DecidableEq, Repr

/-- `rewrite_digest_with_claude`, with the cached `rewritten_digests` file
and the subprocess outcome as explicit inputs. -/
def rewrite_digest_with_claude (cached : Option (List Char))
    (run : CmdOutcome) (text : List Char) : List Char :=
  match cached with
  | some s => s
  | none =>
    match run with
    | .ok out => pstrip out
    | .calledProcessError => clean_markdown_for_tts text
    | .fileNotFound => clean_markdown_for_tts text

/-! ### The digest-acquisition phase of `main`

`get_digest_text` runs the claude CLI: on `TimeoutExpired` it returns the
empty string, on `CalledProcessError` or `FileNotFoundError` it calls
`sys.exit(1)`, and it exits with 1 already when the plugin directory is
missing.  `main` reads today's digest file when it exists, otherwise runs
`get_digest_text` and re-reads the file (exiting with 1 when it still does
not exist or when the text is empty), and only then calls
`generate_audio` and, when the audio file exists, `upload_to_pocket_casts`. -/

/-- Outcome of the digest-generation subprocess. -/
inductive GenOutcome where
  | ok (stdout : List Char)
  | timeoutExpired
  | calledProcessError
  | fileNotFound
deriving DecidableEq, Repr

/-- `get_digest_text`: `Except c out` models `sys.exit(c)` versus a normal
return of `out`. -/
def get_digest_text (pluginDirExists : Bool) (run : GenOutcome) :
    Except Nat (List Char) :=
  if !pluginDirExists then .error 1
  else
    match run with
    | .ok out => .ok (pstrip out)
    | .timeoutExpired => .ok []
    | .calledProcessError => .error 1
    | .fileNotFound => .error 1

/-- External state `main` depends on. -/
structure MainEnv where
  digestExistsBefore : Bool
  digestContents : List Char
  pluginDirExists : Bool
  genOutcome : GenOutcome
  digestExistsAfterGen : Bool
  digestContentsAfterGen : List Char
  synthExit : Option Nat
  audioFileExists : Bool
deriving DecidableEq, Repr

/-- What a run of `main` did: the exit code of a premature `sys.exit`
(`none` when `main` ran to the end), and whether the synthesis call and the
upload call were reached. -/
structure MainResult where
  exitCode : Option Nat
  synthesisCalled : Bool
  uploadCalled : Bool
deriving DecidableEq, Repr

/-- The control flow of `main`: digest acquisition, then rewriting and
synthesis, then the upload guarded by the existence of the audio file.
The rewrite and summary steps never exit and are kept abstract here. -/
def main_run (env : MainEnv) : MainResult :=
  let textE : Except Nat (List Char) :=
    if env.digestExistsBefore then .ok env.digestContents
    else
      match get_digest_text env.pluginDirExists env.genOutcome with
      | .error c => .error c
      | .ok _ =>
        if env.digestExistsAfterGen then .ok env.digestContentsAfterGen
        else .error 1
  match textE with
  | .error c => ⟨some c, false, false⟩
  | .ok text =>
    if text.isEmpty then ⟨some 1, false, false⟩
    else
      match env.synthExit with
      | some c => ⟨some c, true, false⟩
      | none => ⟨none, true, env.audioFileExists⟩

/-! ### Basic facts about characters, stripping and splitting -/

lemma isAlnum_not_isSpace {c : Char} (h : isAlnum c = true) : isSpace c = false := by
  by_contra hc
  rw [Bool.not_eq_false] at hc
  simp only [isSpace, Bool.or_eq_true, decide_eq_true_eq] at hc
  rcases hc with ((((rfl | rfl) | rfl) | rfl) | rfl) | rfl <;> simp [isAlnum] at h

lemma isAlnum_ne_newline {c : Char} (h : isAlnum c = true) : c ≠ '\n' := by
  rintro rfl
  simp [isAlnum] at h

lemma isAlnum_ne_colon {c : Char} (h : isAlnum c = true) : c ≠ ':' := by
  rintro rfl
  simp [isAlnum] at h

lemma dropWhile_length_le (p : Char → Bool) (l : List Char) :
    (l.dropWhile p).length ≤ l.length := by
  induction l with
  | nil => simp
  | cons c t ih =>
    rw [List.dropWhile_cons]
    split
    · exact Nat.le_trans ih (Nat.le_succ _)
    · simp

lemma dropWhile_head_false (p : Char → Bool) {l : List Char} (h : l.dropWhile p = l)
    {c : Char} (hc : l.head? = some c) : p c = false := by
  cases l with
  | nil => simp at hc
  | cons a t =>
    simp only [List.head?_cons, Option.some.injEq] at hc
    subst hc
    rw [List.dropWhile_cons] at h
    by_contra hp
    rw [Bool.not_eq_false] at hp
    rw [if_pos hp] at h
    have := dropWhile_length_le p t
    rw [h] at this
    simp at this

lemma dropWhile_eq_self_of_head (p : Char → Bool) {l : List Char}
    (h : ∀ c, l.head? = some c → p c = false) : l.dropWhile p = l := by
  cases l with
  | nil => simp
  | cons a t =>
    rw [List.dropWhile_cons, if_neg]
    simp [h a rfl]

lemma head?_dropWhile_false (p : Char → Bool) (l : List Char) {c : Char}
    (h : (l.dropWhile p).head? = some c) : p c = false := by
  induction l with
  | nil => simp at h
  | cons a t ih =>
    rw [List.dropWhile_cons] at h
    by_cases hp : p a
    · rw [if_pos hp] at h
      exact ih h
    · rw [if_neg hp] at h
      simp only [List.head?_cons, Option.some.injEq] at h
      subst h
      exact Bool.eq_false_iff.mpr hp

lemma takeWhile_eq_nil_of_head (p : Char → Bool) {l : List Char}
    (h : ∀ c, l.head? = some c → p c = false) : l.takeWhile p = [] := by
  cases l with
  | nil => simp
  | cons a t => simp [List.takeWhile_cons, h a rfl]

lemma pstrip_eq_self_of {l : List Char}
    (h1 : ∀ c, l.head? = some c → isSpace c = false)
    (h2 : ∀ c, l.getLast? = some c → isSpace c = false) : pstrip l = l := by
  unfold pstrip
  rw [dropWhile_eq_self_of_head isSpace h1,
      dropWhile_eq_self_of_head isSpace (by
        intro c hc
        rw [List.head?_reverse] at hc
        exact h2 c hc),
      List.reverse_reverse]

lemma pstrip_getLast_false {l : List Char} {c : Char}
    (h : (pstrip l).getLast? = some c) : isSpace c = false := by
  unfold pstrip at h
  rw [List.getLast?_reverse] at h
  exact head?_dropWhile_false isSpace _ h

lemma getLast?_mem {α : Type} {l : List α} {a : α} (h : l.getLast? = some a) :
    a ∈ l := by
  induction l with
  | nil => simp at h
  | cons b t ih =>
    cases t with
    | nil =>
      simp only [List.getLast?_singleton, Option.some.injEq] at h
      simp [h]
    | cons b' t' =>
      rw [List.getLast?_cons_cons] at h
      exact List.mem_cons_of_mem _ (ih h)

lemma mem_of_mem_dropWhile (p : Char → Bool) {l : List Char} {c : Char}
    (h : c ∈ l.dropWhile p) : c ∈ l := by
  induction l with
  | nil => simp at h
  | cons a t ih =>
    rw [List.dropWhile_cons] at h
    by_cases hp : p a
    · rw [if_pos hp] at h
      exact List.mem_cons_of_mem _ (ih h)
    · rwa [if_neg hp] at h

lemma pstrip_eq_nil_iff {l : List Char} :
    pstrip l = [] ↔ ∀ c ∈ l, isSpace c = true := by
  unfold pstrip
  rw [List.reverse_eq_nil_iff, List.dropWhile_eq_nil_iff]
  constructor
  · intro h c hc
    by_cases hmem : c ∈ l.dropWhile isSpace
    · exact h c (by simpa using hmem)
    · have hsplit := List.takeWhile_append_dropWhile isSpace l
      rw [← hsplit] at hc
      rcases List.mem_append.mp hc with h1 | h1
      · exact List.mem_takeWhile_imp h1
      · exact absurd h1 hmem
  · intro h c hc
    exact h c (mem_of_mem_dropWhile isSpace (by simpa using hc))

lemma takeWhile_append_first (p : Char → Bool) {l : List Char} (r : List Char)
    (hl : ∀ c ∈ l, p c = true) {b : Char} (hb : p b = false) :
    (l ++ b :: r).takeWhile p = l := by
  induction l with
  | nil => simp [List.takeWhile_cons, hb]
  | cons a t ih =>
    rw [List.cons_append, List.takeWhile_cons, if_pos (hl a (by simp))]
    rw [ih (fun c hc => hl c (by simp [hc]))]

lemma dropWhile_append_first (p : Char → Bool) {l : List Char} (r : List Char)
    (hl : ∀ c ∈ l, p c = true) {b : Char} (hb : p b = false) :
    (l ++ b :: r).dropWhile p = b :: r := by
  induction l with
  | nil => simp [List.dropWhile_cons, hb]
  | cons a t ih =>
    rw [List.cons_append, List.dropWhile_cons, if_pos (hl a (by simp))]
    exact ih (fun c hc => hl c (by simp [hc]))

lemma getLast?_cons_ne {α : Type} (a : α) {l : List α} (h : l ≠ []) :
    (a :: l).getLast? = l.getLast? := by
  cases l with
  | nil => exact absurd rfl h
  | cons b t => rw [List.getLast?_cons_cons]

lemma splitOnNewline_not_mem {l : List Char} (h : '\n' ∉ l) :
    splitOnNewline l = [l] := by
  induction l with
  | nil => rfl
  | cons c t ih =>
    unfold splitOnNewline
    rw [if_neg (by rintro rfl; exact h (by simp))]
    rw [ih (fun hm => h (by simp [hm]))]

lemma splitOnNewline_append {l₁ : List Char} (l₂ : List Char) (h : '\n' ∉ l₁) :
    splitOnNewline (l₁ ++ '\n' :: l₂) = l₁ :: splitOnNewline l₂ := by
  induction l₁ with
  | nil => simp [splitOnNewline]
  | cons c t ih =>
    rw [List.cons_append, splitOnNewline]
    rw [if_neg (by rintro rfl; exact h (by simp))]
    rw [ih (fun hm => h (by simp [hm]))]

/-! ### Facts about the speaker-line matcher and the per-line loop body -/

lemma matchSpeakerLine_nil : matchSpeakerLine [] = none := rfl

lemma matchSpeakerLine_eq_some {line s t : List Char}
    (h : matchSpeakerLine line = some (s, t)) :
    s = line.takeWhile isAlnum ∧ s ≠ [] ∧
      ∃ after, line.dropWhile isAlnum = ':' :: after ∧ after ≠ [] ∧
        t = pstrip (after.drop
          (min (after.takeWhile isSpace).length (after.length - 1))) := by
  simp only [matchSpeakerLine] at h
  split at h
  · exact absurd h (by simp)
  · split at h
    · next after heq =>
      split at h
      · exact absurd h (by simp)
      · next hane =>
        obtain ⟨rfl, rfl⟩ := Prod.mk.injEq .. ▸ Option.some.injEq .. ▸ h
        refine ⟨rfl, ?_, after, heq, ?_, rfl⟩
        · next hne _ => simpa using hne
        · simpa using hane
    · exact absurd h (by simp)

lemma matchSpeakerLine_wellFormed {s x : List Char}
    (hs : s ≠ []) (hsa : ∀ c ∈ s, isAlnum c = true)
    (hx : x ≠ []) (hx1 : x.dropWhile isSpace = x)
    (hx2 : x.reverse.dropWhile isSpace = x.reverse) :
    matchSpeakerLine (s ++ ':' :: ' ' :: x) = some (s, x) := by
  have hcolon : isAlnum ':' = false := by decide
  have htake : (s ++ ':' :: ' ' :: x).takeWhile isAlnum = s :=
    takeWhile_append_first isAlnum _ hsa hcolon
  have hdrop : (s ++ ':' :: ' ' :: x).dropWhile isAlnum = ':' :: ' ' :: x :=
    dropWhile_append_first isAlnum _ hsa hcolon
  have hxhead : x.takeWhile isSpace = [] :=
    takeWhile_eq_nil_of_head isSpace
      (fun c hc => dropWhile_head_false isSpace hx1 hc)
  have hwlen : ((' ' :: x).takeWhile isSpace).length = 1 := by
    rw [List.takeWhile_cons, if_pos (by decide), hxhead]
    rfl
  have hxlen : 0 < x.length := List.length_pos.mpr hx
  have hmin : min ((' ' :: x).takeWhile isSpace).length ((' ' :: x).length - 1)
      = 1 := by
    rw [hwlen]
    simp only [List.length_cons, Nat.add_sub_cancel]
    omega
  have hps : pstrip x = x := by
    unfold pstrip
    rw [hx1, hx2, List.reverse_reverse]
  simp only [matchSpeakerLine, htake, hdrop]
  rw [if_neg (by simpa using hs)]
  simp only [List.isEmpty_cons, Bool.false_eq_true, if_false, hmin,
    List.drop_succ_cons, List.drop_zero, hps]

lemma appendToLast_eq {turns : List DialogueTurn} {t : DialogueTurn}
    (h : turns.getLast? = some t) (line : List Char) :
    appendToLast turns line =
      turns.dropLast ++ [⟨t.speaker, t.text ++ ' ' :: line⟩] := by
  induction turns with
  | nil => simp at h
  | cons a rest ih =>
    cases rest with
    | nil =>
      simp only [List.getLast?_singleton, Option.some.injEq] at h
      subst h
      simp [appendToLast]
    | cons b r =>
      rw [List.getLast?_cons_cons] at h
      have hb : b :: r ≠ [] := by simp
      calc appendToLast (a :: b :: r) line
          = a :: appendToLast (b :: r) line := rfl
        _ = a :: ((b :: r).dropLast ++ [⟨t.speaker, t.text ++ ' ' :: line⟩]) :=
            by rw [ih h]
        _ = (a :: b :: r).dropLast ++ [⟨t.speaker, t.text ++ ' ' :: line⟩] := by
            rw [List.dropLast_cons_of_ne_nil hb]
            rfl

lemma mem_appendToLast {turns : List DialogueTurn} {line : List Char}
    {u : DialogueTurn} (h : u ∈ appendToLast turns line) :
    u ∈ turns ∨ ∃ t ∈ turns, u = ⟨t.speaker, t.text ++ ' ' :: line⟩ := by
  induction turns with
  | nil => simp [appendToLast] at h
  | cons a rest ih =>
    cases rest with
    | nil =>
      simp only [appendToLast, List.mem_singleton] at h
      exact Or.inr ⟨a, by simp, h⟩
    | cons b r =>
      have : appendToLast (a :: b :: r) line
          = a :: appendToLast (b :: r) line := rfl
      rw [this, List.mem_cons] at h
      rcases h with rfl | h
      · exact Or.inl (by simp)
      · rcases ih h with h1 | ⟨t, ht, rfl⟩
        · exact Or.inl (List.mem_cons_of_mem _ h1)
        · exact Or.inr ⟨t, List.mem_cons_of_mem _ ht, rfl⟩

lemma processLine_blank {turns : List DialogueTurn} {raw : List Char}
    (h : pstrip raw = []) : processLine turns raw = turns := by
  simp [processLine, h]

lemma processLine_match {turns : List DialogueTurn} {raw s t : List Char}
    (h : matchSpeakerLine (pstrip raw) = some (s, t)) :
    processLine turns raw = turns ++ [⟨s, t⟩] := by
  have hne : (pstrip raw).isEmpty = false := by
    cases hp : pstrip raw with
    | nil => rw [hp] at h; exact absurd h (by rw [matchSpeakerLine_nil]; simp)
    | cons a l => simp
  simp [processLine, hne, h]

lemma processLine_noMatch {turns : List DialogueTurn} {raw : List Char}
    (hne : pstrip raw ≠ []) (h : matchSpeakerLine (pstrip raw) = none) :
    processLine turns raw = appendToLast turns (pstrip raw) := by
  simp [processLine, h, List.isEmpty_eq_true, hne]

lemma processLine_nil_acc {raw : List Char}
    (h : matchSpeakerLine (pstrip raw) = none) : processLine [] raw = [] := by
  by_cases hne : pstrip raw = []
  · exact processLine_blank hne
  · rw [processLine_noMatch hne h]
    rfl

lemma foldl_nil_of_noMatch {lines : List (List Char)}
    (h : ∀ line ∈ lines, matchSpeakerLine (pstrip line) = none) :
    lines.foldl processLine [] = [] := by
  induction lines with
  | nil => rfl
  | cons l rest ih =>
    rw [List.foldl_cons, processLine_nil_acc (h l (by simp))]
    exact ih (fun l' hl' => h l' (by simp [hl']))

lemma matchSpeakerLine_pstrip_props {raw s t : List Char}
    (h : matchSpeakerLine (pstrip raw) = some (s, t)) :
    s ≠ [] ∧ (∀ c ∈ s, isAlnum c = true) ∧ t ≠ [] := by
  obtain ⟨hs_eq, hs_ne, after, hafter, hane, ht⟩ := matchSpeakerLine_eq_some h
  refine ⟨hs_ne, fun c hc => List.mem_takeWhile_imp (hs_eq ▸ hc), ?_⟩
  have hL : pstrip raw = s ++ ':' :: after := by
    conv_lhs => rw [← List.takeWhile_append_dropWhile isAlnum (pstrip raw)]
    rw [hafter, hs_eq]
  have hLne : pstrip raw ≠ [] := by rw [hL]; simp
  have hc := List.getLast?_eq_getLast_of_ne_nil hLne
  set c := (pstrip raw).getLast hLne with hc_def
  have hcs : isSpace c = false := pstrip_getLast_false hc
  have hc_after : after.getLast? = some c := by
    rw [hL, List.getLast?_append_of_ne_nil _ (by simp),
      getLast?_cons_ne ':' hane] at hc
    exact hc
  have halen : 0 < after.length := List.length_pos.mpr hane
  set k := min (after.takeWhile isSpace).length (after.length - 1) with hk_def
  have hk : k < after.length := by
    have := Nat.min_le_right (after.takeWhile isSpace).length (after.length - 1)
    omega
  have hdropne : after.drop k ≠ [] := by
    rw [← List.length_pos, List.length_drop]
    omega
  have hlast_drop : (after.drop k).getLast? = some c := by
    conv at hc_after => rw [← List.take_append_drop k after]
    rwa [List.getLast?_append_of_ne_nil _ hdropne] at hc_after
  rw [ht]
  intro hnil
  rw [pstrip_eq_nil_iff] at hnil
  have := hnil c (getLast?_mem hlast_drop)
  rw [hcs] at this
  exact absurd this (by simp)

lemma processLine_inv {turns : List DialogueTurn} {raw : List Char}
    (h : ∀ t ∈ turns,
      t.speaker ≠ [] ∧ (∀ c ∈ t.speaker, isAlnum c = true) ∧ t.text ≠ []) :
    ∀ t ∈ processLine turns raw,
      t.speaker ≠ [] ∧ (∀ c ∈ t.speaker, isAlnum c = true) ∧ t.text ≠ [] := by
  by_cases hb : pstrip raw = []
  · rw [processLine_blank hb]
    exact h
  · cases hm : matchSpeakerLine (pstrip raw) with
    | some st =>
      obtain ⟨s, x⟩ := st
      rw [processLine_match hm]
      intro t ht
      rcases List.mem_append.mp ht with h1 | h1
      · exact h t h1
      · obtain ⟨p1, p2, p3⟩ := matchSpeakerLine_pstrip_props hm
        have : t = ⟨s, x⟩ := by simpa using h1
        subst this
        exact ⟨p1, p2, p3⟩
    | none =>
      rw [processLine_noMatch hb hm]
      intro t ht
      rcases mem_appendToLast ht with h1 | ⟨u, hu, rfl⟩
      · exact h t h1
      · obtain ⟨p1, p2, _⟩ := h u hu
        exact ⟨p1, p2, by simp⟩

lemma foldl_processLine_inv {lines : List (List Char)} {acc : List DialogueTurn}
    (h : ∀ t ∈ acc,
      t.speaker ≠ [] ∧ (∀ c ∈ t.speaker, isAlnum c = true) ∧ t.text ≠ []) :
    ∀ t ∈ lines.foldl processLine acc,
      t.speaker ≠ [] ∧ (∀ c ∈ t.speaker, isAlnum c = true) ∧ t.text ≠ [] := by
  induction lines generalizing acc with
  | nil => exact h
  | cons l rest ih =>
    rw [List.foldl_cons]
    exact ih (processLine_inv h)

lemma matchSpeakerLine_none_of_punct {line : List Char}
    (h : ∃ c ∈ line.takeWhile (fun d => d ≠ ':'), isAlnum c = false) :
    matchSpeakerLine line = none := by
  obtain ⟨c, hc_mem, hc⟩ := h
  cases hm : matchSpeakerLine line with
  | none => rfl
  | some st =>
    obtain ⟨s, t⟩ := st
    obtain ⟨hs_eq, hs_ne, after, hafter, _, _⟩ := matchSpeakerLine_eq_some hm
    have hsa : ∀ d ∈ s, isAlnum d = true :=
      fun d hd => List.mem_takeWhile_imp (hs_eq ▸ hd)
    have hL : line = s ++ ':' :: after := by
      conv_lhs => rw [← List.takeWhile_append_dropWhile isAlnum line]
      rw [hafter, hs_eq]
    have hpre : line.takeWhile (fun d => d ≠ ':') = s := by
      rw [hL]
      exact takeWhile_append_first _ _
        (fun d hd => by simpa using isAlnum_ne_colon (hsa d hd)) (by simp)
    rw [hpre] at hc_mem
    rw [hsa c hc_mem] at hc
    exact absurd hc (by simp)

lemma matchSpeakerLine_token_colon {s : List Char}
    (hsa : ∀ c ∈ s, isAlnum c = true) :
    matchSpeakerLine (s ++ [':']) = none := by
  have hcolon : isAlnum ':' = false := by decide
  have hdrop : (s ++ [':']).dropWhile isAlnum = [':'] :=
    dropWhile_append_first isAlnum ([] : List Char) hsa hcolon
  simp only [matchSpeakerLine, hdrop]
  split <;> rfl

lemma pstrip_wellFormed_line {s x : List Char} (hs : s ≠ [])
    (hsa : ∀ c ∈ s, isAlnum c = true) (hx : x ≠ [])
    (hx2 : x.reverse.dropWhile isSpace = x.reverse) :
    pstrip (s ++ ':' :: ' ' :: x) = s ++ ':' :: ' ' :: x := by
  apply pstrip_eq_self_of
  · intro c hc
    rw [List.head?_append_of_ne_nil _ hs] at hc
    cases s with
    | nil => exact absurd rfl hs
    | cons a t =>
      simp only [List.head?_cons, Option.some.injEq] at hc
      subst hc
      exact isAlnum_not_isSpace (hsa _ (by simp))
  · intro c hc
    rw [List.getLast?_append_of_ne_nil _ (by simp),
        getLast?_cons_ne _ (by simp), getLast?_cons_ne _ hx,
        ← List.head?_reverse] at hc
    exact dropWhile_head_false isSpace hx2 hc

/-! ### The claims -/

/-- C1: `parse_script_to_turns` is a total function (it raises no error on
any input, being defined for every string), and on degenerate input — empty
or whitespace-only input, or input in which no line matches the speaker
pattern — it returns the empty sequence. -/
theorem c1_degenerate_input_yields_empty (script : List Char)
    (h : (∀ c ∈ script, isSpace c = true) ∨
      (∀ line ∈ splitOnNewline (pstrip script),
        matchSpeakerLine (pstrip line) = none)) :
    parse_script_to_turns script = [] := by
  rcases h with h | h
  · have hps : pstrip script = [] := pstrip_eq_nil_iff.mpr h
    rw [parse_script_to_turns, hps]
    rfl
  · exact foldl_nil_of_noMatch h

theorem c1_witness :
    (∀ c ∈ [' ', '\n', '\t'], isSpace c = true) ∧
      parse_script_to_turns [' ', '\n', '\t'] = [] :=
  ⟨by decide, c1_degenerate_input_yields_empty [' ', '\n', '\t'] (Or.inl (by decide))⟩

/-- C2: for speaker tokens `A`, `B` (non-empty, alphanumeric) and non-empty
trimmed single-line utterances `x`, `y`, parsing the well-formed input
`"A: x\nB: y"` yields exactly the two turns `⟨A, x⟩` then `⟨B, y⟩`. -/
theorem c2_wellformed_two_turns (A B x y : List Char)
    (hA : A ≠ []) (hAa : ∀ c ∈ A, isAlnum c = true)
    (hB : B ≠ []) (hBa : ∀ c ∈ B, isAlnum c = true)
    (hx : x ≠ []) (hx1 : x.dropWhile isSpace = x)
    (hx2 : x.reverse.dropWhile isSpace = x.reverse) (hx3 : '\n' ∉ x)
    (hy : y ≠ []) (hy1 : y.dropWhile isSpace = y)
    (hy2 : y.reverse.dropWhile isSpace = y.reverse) (hy3 : '\n' ∉ y) :
    parse_script_to_turns (A ++ [':', ' '] ++ x ++ ['\n'] ++ B ++ [':', ' '] ++ y)
      = [⟨A, x⟩, ⟨B, y⟩] := by
  have hline1 := pstrip_wellFormed_line hA hAa hx hx2
  have hline2 := pstrip_wellFormed_line hB hBa hy hy2
  have hm1 := matchSpeakerLine_wellFormed hA hAa hx hx1 hx2
  have hm2 := matchSpeakerLine_wellFormed hB hBa hy hy1 hy2
  have hscript : A ++ [':', ' '] ++ x ++ ['\n'] ++ B ++ [':', ' '] ++ y
      = (A ++ ':' :: ' ' :: x) ++ '\n' :: (B ++ ':' :: ' ' :: y) := by
    simp [List.append_assoc]
  rw [parse_script_to_turns, hscript]
  have hps : pstrip ((A ++ ':' :: ' ' :: x) ++ '\n' :: (B ++ ':' :: ' ' :: y))
      = (A ++ ':' :: ' ' :: x) ++ '\n' :: (B ++ ':' :: ' ' :: y) := by
    apply pstrip_eq_self_of
    · intro c hc
      rw [List.head?_append_of_ne_nil _ (by simp [hA]),
          List.head?_append_of_ne_nil _ hA] at hc
      cases A with
      | nil => exact absurd rfl hA
      | cons a t =>
        simp only [List.head?_cons, Option.some.injEq] at hc
        subst hc
        exact isAlnum_not_isSpace (hAa _ (by simp))
    · intro c hc
      rw [List.getLast?_append_of_ne_nil _ (by simp),
          getLast?_cons_ne _ (by simp [hB]),
          List.getLast?_append_of_ne_nil _ (by simp),
          getLast?_cons_ne _ (by simp), getLast?_cons_ne _ hy,
          ← List.head?_reverse] at hc
      exact dropWhile_head_false isSpace hy2 hc
  rw [hps]
  have hnl1 : '\n' ∉ A ++ ':' :: ' ' :: x := by
    intro hmem
    rcases List.mem_append.mp hmem with h1 | h1
    · exact isAlnum_ne_newline (hAa _ h1) rfl
    · simp only [List.mem_cons] at h1
      rcases h1 with h1 | h1 | h1
      · exact absurd h1 (by decide)
      · exact absurd h1 (by decide)
      · exact hx3 h1
  have hnl2 : '\n' ∉ B ++ ':' :: ' ' :: y := by
    intro hmem
    rcases List.mem_append.mp hmem with h1 | h1
    · exact isAlnum_ne_newline (hBa _ h1) rfl
    · simp only [List.mem_cons] at h1
      rcases h1 with h1 | h1 | h1
      · exact absurd h1 (by decide)
      · exact absurd h1 (by decide)
      · exact hy3 h1
  rw [splitOnNewline_append _ hnl1, splitOnNewline_not_mem hnl2]
  rw [List.foldl_cons, List.foldl_cons, List.foldl_nil]
  have hpm1 : matchSpeakerLine (pstrip (A ++ ':' :: ' ' :: x)) = some (A, x) := by
    rw [hline1]
    exact hm1
  have hpm2 : matchSpeakerLine (pstrip (B ++ ':' :: ' ' :: y)) = some (B, y) := by
    rw [hline2]
    exact hm2
  rw [processLine_match hpm1, processLine_match hpm2]
  rfl

theorem c2_witness :
    parse_script_to_turns
        (['A'] ++ [':', ' '] ++ ['x'] ++ ['\n'] ++ ['B'] ++ [':', ' '] ++ ['y'])
      = [⟨['A'], ['x']⟩, ⟨['B'], ['y']⟩] :=
  c2_wellformed_two_turns ['A'] ['B'] ['x'] ['y']
    (by decide) (by decide) (by decide) (by decide)
    (by decide) (by decide) (by decide) (by decide)
    (by decide) (by decide) (by decide) (by decide)

/-- C3: a non-empty non-matching line that follows at least one parsed turn
is merged into the most recently appended turn: a single space plus the
line's trimmed content is appended to its text, and no new turn is created;
in particular `"A: hello\nworld"` yields one turn `⟨A, "hello world"⟩`. -/
theorem c3_continuation_appends_to_last :
    (∀ (turns : List DialogueTurn) (t : DialogueTurn) (raw : List Char),
      turns.getLast? = some t → pstrip raw ≠ [] →
      matchSpeakerLine (pstrip raw) = none →
      processLine turns raw =
        turns.dropLast ++ [⟨t.speaker, t.text ++ ' ' :: pstrip raw⟩]) ∧
    parse_script_to_turns ("A: hello\nworld").toList =
      [⟨"A".toList, "hello world".toList⟩] := by
  constructor
  · intro turns t raw hlast hne hnm
    rw [processLine_noMatch hne hnm, appendToLast_eq hlast]
  · decide

theorem c3_witness :
    processLine [⟨['A'], ['x']⟩] (" wrapped ").toList =
      ([⟨['A'], ['x']⟩] : List DialogueTurn).dropLast ++
        [⟨['A'], ['x'] ++ ' ' :: pstrip (" wrapped ").toList⟩] :=
  c3_continuation_appends_to_last.1 [⟨['A'], ['x']⟩] ⟨['A'], ['x']⟩
    (" wrapped ").toList (by decide) (by decide) (by decide)

/-- C4 counterexample: the spec's example line `"Note: watch this"` is NOT
treated as continuation text — `"Note"` is purely alphanumeric, so the line
matches the speaker pattern and starts a new turn with speaker `Note`. -/
theorem c4_counterexample :
    parse_script_to_turns ("A: x\nNote: watch this").toList =
      [⟨"A".toList, "x".toList⟩, ⟨"Note".toList, "watch this".toList⟩] ∧
    parse_script_to_turns ("A: x\nNote: watch this").toList ≠
      [⟨"A".toList, ("x Note: watch this").toList⟩] := by
  exact ⟨by decide, by decide⟩

/-- C4 (amended): a line whose prefix before the first colon actually
contains a character that is not a letter or digit (for example
`"Note to self: watch this"`, whose prefix contains spaces) is treated as
continuation text when it follows a matched turn, and is not parsed as a
new speaker turn; a purely alphanumeric prefix such as `"Note"` does match
and starts a new turn. -/
theorem c4_amended_punct_prefix_is_continuation :
    (∀ (turns : List DialogueTurn) (t : DialogueTurn) (raw : List Char),
      turns.getLast? = some t → pstrip raw ≠ [] →
      (∃ c ∈ (pstrip raw).takeWhile (fun d => d ≠ ':'), isAlnum c = false) →
      processLine turns raw =
        turns.dropLast ++ [⟨t.speaker, t.text ++ ' ' :: pstrip raw⟩]) ∧
    parse_script_to_turns ("A: x\nNote to self: watch this").toList =
      [⟨"A".toList, ("x Note to self: watch this").toList⟩] := by
  constructor
  · intro turns t raw hlast hne hpunct
    rw [processLine_noMatch hne (matchSpeakerLine_none_of_punct hpunct),
        appendToLast_eq hlast]
  · decide

theorem c4_amended_witness :
    processLine [⟨['A'], ['x']⟩] ("N.B.: watch").toList =
      ([⟨['A'], ['x']⟩] : List DialogueTurn).dropLast ++
        [⟨['A'], ['x'] ++ ' ' :: pstrip ("N.B.: watch").toList⟩] :=
  c4_amended_punct_prefix_is_continuation.1 [⟨['A'], ['x']⟩] ⟨['A'], ['x']⟩
    ("N.B.: watch").toList (by decide) (by decide) (by decide)

/-- C5: every turn returned by `parse_script_to_turns` has non-empty text,
and a non-empty speaker consisting only of letters and digits — hence with
no internal whitespace. -/
theorem c5_turn_invariants (script : List Char) (t : DialogueTurn)
    (h : t ∈ parse_script_to_turns script) :
    t.text ≠ [] ∧ t.speaker ≠ [] ∧
      (∀ c ∈ t.speaker, isAlnum c = true) ∧
      (∀ c ∈ t.speaker, isSpace c = false) := by
  rw [parse_script_to_turns] at h
  obtain ⟨h1, h2, h3⟩ := foldl_processLine_inv (by simp) t h
  exact ⟨h3, h1, h2, fun c hc => isAlnum_not_isSpace (h2 c hc)⟩

theorem c5_witness :
    (⟨['A'], ['x']⟩ : DialogueTurn).text ≠ [] ∧
    (⟨['A'], ['x']⟩ : DialogueTurn).speaker ≠ [] ∧
      (∀ c ∈ (⟨['A'], ['x']⟩ : DialogueTurn).speaker, isAlnum c = true) ∧
      (∀ c ∈ (⟨['A'], ['x']⟩ : DialogueTurn).speaker, isSpace c = false) :=
  c5_turn_invariants ("A: x").toList ⟨['A'], ['x']⟩ (by decide)

/-- C6: a line that is empty after trimming is skipped and never produces a
turn; in particular `"A: x\n\n\nB: y"` parses to exactly the same two turns
as `"A: x\nB: y"`. -/
theorem c6_blank_lines_skipped :
    (∀ (turns : List DialogueTurn) (raw : List Char),
      pstrip raw = [] → processLine turns raw = turns) ∧
    parse_script_to_turns ("A: x\n\n\nB: y").toList =
      parse_script_to_turns ("A: x\nB: y").toList :=
  ⟨fun _ _ h => processLine_blank h, by decide⟩

theorem c6_witness :
    processLine [⟨['A'], ['x']⟩] ("  \t ").toList = [⟨['A'], ['x']⟩] :=
  c6_blank_lines_skipped.1 [⟨['A'], ['x']⟩] ("  \t ").toList (by decide)

/-- C7: a non-matching line seen before any turn has been parsed is
silently discarded; in particular `"not a turn\nA: x"` yields exactly one
turn `⟨A, x⟩`. -/
theorem c7_leading_nonmatch_dropped :
    (∀ raw : List Char, matchSpeakerLine (pstrip raw) = none →
      processLine [] raw = []) ∧
    parse_script_to_turns ("not a turn\nA: x").toList =
      [⟨"A".toList, "x".toList⟩] :=
  ⟨fun _ h => processLine_nil_acc h, by decide⟩

theorem c7_witness :
    processLine [] ("not a turn").toList = [] :=
  c7_leading_nonmatch_dropped.1 ("not a turn").toList (by decide)

/-- C8: when the external rewrite command fails — non-zero exit
(`CalledProcessError`) or missing CLI (`FileNotFoundError`) — and no cached
rewritten digest exists, `rewrite_digest_with_claude` returns
`clean_markdown_for_tts` of the original digest (links replaced by their
link text, URLs removed, bold/italic markers and header prefixes stripped,
result trimmed), raising no exception.  The second conjunct exercises the
cleaner on a concrete digest showing each transformation. -/
theorem c8_rewrite_failure_fallback :
    (∀ (text : List Char) (run : CmdOutcome),
      (run = CmdOutcome.calledProcessError ∨ run = CmdOutcome.fileNotFound) →
      rewrite_digest_with_claude none run text = clean_markdown_for_tts text) ∧
    clean_markdown_for_tts
        ("## Title\n**bold** and *it* see [text](http://u) at https://a.b now  ").toList
      = ("Title\nbold and it see text at  now").toList := by
  constructor
  · rintro text run (rfl | rfl) <;> rfl
  · decide

theorem c8_witness :
    rewrite_digest_with_claude none CmdOutcome.calledProcessError
        ("# Hi\n[go](http://x)").toList
      = clean_markdown_for_tts ("# Hi\n[go](http://x)").toList :=
  c8_rewrite_failure_fallback.1 ("# Hi\n[go](http://x)").toList
    CmdOutcome.calledProcessError (Or.inl rfl)

/-- C9: when today's digest file does not exist and the generation command
fails (non-zero exit or missing CLI), `main` terminates via `sys.exit(1)` —
a non-zero status — before the synthesis call and before the upload call. -/
theorem c9_generation_failure_aborts (env : MainEnv)
    (h1 : env.digestExistsBefore = false)
    (h2 : env.genOutcome = GenOutcome.calledProcessError ∨
      env.genOutcome = GenOutcome.fileNotFound) :
    main_run env = ⟨some 1, false, false⟩ := by
  have hget : get_digest_text env.pluginDirExists env.genOutcome
      = Except.error 1 := by
    rcases h2 with h2 | h2 <;>
      · rw [h2]
        cases env.pluginDirExists <;> rfl
  simp [main_run, h1, hget]

theorem c9_witness :
    main_run ⟨false, [], true, GenOutcome.calledProcessError, false, [], none, false⟩
      = ⟨some 1, false, false⟩ :=
  c9_generation_failure_aborts _ rfl (Or.inl rfl)

/-- C10: a trimmed line consisting of an alphanumeric token immediately
followed by a colon but with nothing after the colon (such as `"A:"`) never
starts a new turn: with at least one prior turn the whole line, colon
included, is appended (after a single space) to the last turn's text, and
with no prior turn the line is discarded. -/
theorem c10_token_colon_no_content (s raw : List Char)
    (turns : List DialogueTurn)
    (hsa : ∀ c ∈ s, isAlnum c = true)
    (hline : pstrip raw = s ++ [':']) :
    (turns = [] → processLine turns raw = []) ∧
    (∀ t, turns.getLast? = some t →
      processLine turns raw =
        turns.dropLast ++ [⟨t.speaker, t.text ++ ' ' :: (s ++ [':'])⟩]) := by
  have hnm : matchSpeakerLine (pstrip raw) = none := by
    rw [hline]
    exact matchSpeakerLine_token_colon hsa
  have hne : pstrip raw ≠ [] := by rw [hline]; simp
  constructor
  · rintro rfl
    exact processLine_nil_acc hnm
  · intro t ht
    rw [processLine_noMatch hne hnm, hline, appendToLast_eq ht]

theorem c10_witness :
    processLine [⟨['A'], ['x']⟩] ("A:").toList =
      ([⟨['A'], ['x']⟩] : List DialogueTurn).dropLast ++
        [⟨['A'], ['x'] ++ ' ' :: (['A'] ++ [':'])⟩] :=
  (c10_token_colon_no_content ['A'] ("A:").toList [⟨['A'], ['x']⟩]
      (by decide) (by decide)).2 ⟨['A'], ['x']⟩ (by decide)

end DigestAudio
